import Mathlib

/-!
Shallow embedding of `src/models/llm.h` (ctransformers): the `RingBuffer`
recency store and the `LLM` generation-session orchestration, with the
external capabilities (`Load`, `Eval`, the sampler, the clock and the
hardware-concurrency query) passed in as explicit function parameters.
C++ `int` values are modelled as `Int`; machine overflow is not modelled.
Operations that hit C++ undefined behaviour (modulo by zero) return
`Option` and yield `none` there.
-/

/-- Embeds `class RingBuffer` (llm.h lines 7-52): fields `capacity_`,
`tokens_` (a `std::vector<gpt_vocab::id>`), `pos_`. -/
structure RingBuffer where
  capacity_ : Int
  tokens_ : List Int
  pos_ : Int
deriving DecidableEq, Repr

/-- `Size()`: `tokens_.size()` cast to `int`. -/
def RingBuffer.Size (b : RingBuffer) : Int := b.tokens_.length

/-- `Clear()`: empties storage, resets the cursor; capacity preserved. -/
def RingBuffer.Clear (b : RingBuffer) : RingBuffer :=
  { b with tokens_ := [], pos_ := 0 }

/-- `Init(capacity)`: sets `capacity_`, then `Clear()`. -/
def RingBuffer.Init (b : RingBuffer) (capacity : Int) : RingBuffer :=
  RingBuffer.Clear { b with capacity_ := capacity }

/-- `Add(token)`: append while below capacity, otherwise overwrite the slot
at the cursor; the cursor always advances modulo `capacity_`.
(For `capacity_ ≤ 0` the C++ `% capacity_` is undefined behaviour; every
claim assumes a positive capacity, where `Int.emod` agrees with C++ `%`
on the nonnegative reachable values of `pos_`.) -/
def RingBuffer.Add (b : RingBuffer) (token : Int) : RingBuffer :=
  let tokens :=
    if b.Size < b.capacity_ then b.tokens_ ++ [token]
    else b.tokens_.set b.pos_.toNat token
  { b with tokens_ := tokens, pos_ := (b.pos_ + 1) % b.capacity_ }

/-- `GetRecent(n)`: clamp `n` to `min(Size(), n)`; empty result when the
clamp is zero; otherwise gather the circular range `[start, pos_)` where
`start = (pos_ - n + size) % size`, as an unordered set.  When `size = 0`
and the clamped `n` is nonzero, the C++ `% size` divides by zero
(undefined behaviour), modelled as `none`. -/
def RingBuffer.GetRecent (b : RingBuffer) (n : Int) : Option (Finset Int) :=
  let size : Int := b.Size
  let n := min size n
  if n = 0 then some ∅
  else if size = 0 then none
  else
    let start : Int := (b.pos_ - n + size) % size
    if start < b.pos_ then
      some ((b.tokens_.drop start.toNat).take (b.pos_ - start).toNat).toFinset
    else
      some ((b.tokens_.drop start.toNat).toFinset ∪
            (b.tokens_.take b.pos_.toNat).toFinset)

/-- The buffer reached from `Init(capacity)` by `Add`ing the tokens of
`hist` in order. -/
def mkBuffer (capacity : Int) (hist : List Int) : RingBuffer :=
  hist.foldl RingBuffer.Add (RingBuffer.Init ⟨0, [], 0⟩ capacity)

/-- The last `k` elements of `l` (all of `l` when `k ≥ l.length`). -/
def lastN (l : List Int) (k : Nat) : List Int := l.drop (l.length - k)

/-- Derived characterization of the backing vector of `mkBuffer c hist`
for `c > 0`: while filling it is `hist` itself; once `hist` exceeds the
capacity it is the last `c` elements of `hist` rotated so that index
`hist.length % c` holds the oldest retained element. -/
def bufList (c : Nat) (hist : List Int) : List Int :=
  if hist.length ≤ c then hist
  else
    (lastN hist c).drop (c - hist.length % c) ++
    (lastN hist c).take (c - hist.length % c)

/-- The vocabulary structure consumed by llm.h (declared externally in
common.h): bidirectional id-text maps and a special-token list.  The
`std::map`s are modelled as association lists with unique keys, looked up
by `mapFind`. -/
structure gpt_vocab where
  token_to_id : List (String × Int)
  id_to_token : List (Int × String)
  special_tokens : List String
deriving DecidableEq, Repr

/-- Models `std::map::find`: the value at key `k`, if present. -/
def mapFind {α β : Type} [DecidableEq α] (l : List (α × β)) (k : α) : Option β :=
  (l.find? (fun p => p.1 = k)).map (fun p => p.2)

/-- Embeds the session-owned state of `class LLM` (llm.h lines 54-176):
context length `n_ctx_`, vocabulary, last logits (floats modelled as
rationals), the recency buffer and the `initialized_` flag.  The external
engine's own state (model weights, cache, `mem_per_token_`) is opaque to
every claim and is threaded separately as a type parameter where needed. -/
structure LLM where
  n_ctx_ : Int
  vocab_ : gpt_vocab
  logits_ : List ℚ
  previous_tokens_ : RingBuffer
  initialized_ : Bool
deriving DecidableEq, Repr

/-- `ContextLength()`. -/
def LLM.ContextLength (m : LLM) : Int := m.n_ctx_

/-- `VocabSize()`: `vocab_.id_to_token.size()`. -/
def LLM.VocabSize (m : LLM) : Nat := m.vocab_.id_to_token.length

/-- `EosToken()`: the id mapped from `"<|endoftext|>"`, else 0. -/
def LLM.EosToken (m : LLM) : Int :=
  match mapFind m.vocab_.token_to_id "<|endoftext|>" with
  | some id => id
  | none => 0

/-- `Detokenize(id)`: reverse lookup, empty string for unknown ids. -/
def LLM.Detokenize (m : LLM) (id : Int) : String :=
  match mapFind m.vocab_.id_to_token id with
  | some s => s
  | none => ""

/-- `IsEosToken(token)`: the canonical EOS id, or — when any special
tokens exist — a token whose text is the literal `"### End"`. -/
def LLM.IsEosToken (m : LLM) (token : Int) : Bool :=
  if token = m.EosToken then true
  else if m.vocab_.special_tokens ≠ [] then m.Detokenize token = "### End"
  else false

/-- `Reset()`: clears the logits and the recency buffer. -/
def LLM.Reset (m : LLM) : LLM :=
  { m with logits_ := [], previous_tokens_ := m.previous_tokens_.Clear }

/-- `Init(filename)` (llm.h lines 58-67).  The external `Load` capability
is a parameter: given the engine state, the current vocabulary and the
filename it returns (status, new engine state, the vocabulary as written
through the by-reference parameter, and the loaded model's `n_ctx`, which
the generated `Load` override assigns only on success).  The result also
carries the list of filenames `Load` was invoked on, so that claims about
`Load` not being called are statable. -/
def LLM.Init {σ : Type} (load : σ → gpt_vocab → String → Bool × σ × gpt_vocab × Int)
    (m : LLM) (es : σ) (filename : String) : Bool × LLM × σ × List String :=
  if m.initialized_ then (false, m, es, [])
  else
    let r := load es m.vocab_ filename
    let ok := r.1
    let es' := r.2.1
    let v := r.2.2.1
    let nctx := r.2.2.2
    if ok then
      let m' : LLM :=
        { m with vocab_ := v, n_ctx_ := nctx,
                 previous_tokens_ := m.previous_tokens_.Init nctx,
                 initialized_ := true }
      (true, m', es', [filename])
    else
      (false, { m with vocab_ := v }, es', [filename])

/-- One invocation of the external `Eval` capability, as observed by the
claims: the token batch, the resolved thread count and `n_past`. -/
structure EvalCall where
  tokens : List Int
  threads : Int
  n_past : Int
deriving DecidableEq, Repr

/-- Result of an internal or batched evaluation: status, new session
state, new engine state, and the trace of `Eval` invocations made. -/
structure EvalResult (σ : Type) where
  ok : Bool
  m : LLM
  es : σ
  calls : List EvalCall
deriving DecidableEq, Repr

/-- `EvalInternal(tokens, threads)` (llm.h lines 150-163).  The external
`Eval` capability takes the engine state and the call arguments and
returns (status, new engine state, the logits written through the
by-reference `logits_` parameter); `hw` models
`std::thread::hardware_concurrency()`.  On success every token of the
batch is `Add`ed to `previous_tokens_`, in order; on failure the buffer
is untouched. -/
def LLM.EvalInternal {σ : Type} (eval : σ → EvalCall → Bool × σ × List ℚ)
    (hw : Int) (m : LLM) (es : σ) (tokens : List Int) (threads : Int) :
    EvalResult σ :=
  let threads := if threads < 0 then min hw 4 else threads
  let n_past := min (m.ContextLength - tokens.length) m.previous_tokens_.Size
  let call : EvalCall := ⟨tokens, threads, n_past⟩
  let r := eval es call
  let m' : LLM := { m with logits_ := r.2.2 }
  if r.1 then
    ⟨true, { m' with previous_tokens_ := tokens.foldl RingBuffer.Add m.previous_tokens_ },
     r.2.1, [call]⟩
  else
    ⟨false, m', r.2.1, [call]⟩

/-- The loop body of `BatchEval` (llm.h lines 84-91): take the next chunk
of `batch_size` tokens, run `EvalInternal`, stop on failure, recurse on
the rest.  Termination needs `0 < batch_size`, which matches the C++ for
loop `start += batch_size` never advancing when `batch_size ≤ 0`. -/
def LLM.batchEvalGo {σ : Type} (eval : σ → EvalCall → Bool × σ × List ℚ)
    (hw : Int) (batch_size : Nat) (hbs : 0 < batch_size) (threads : Int)
    (m : LLM) (es : σ) (tokens : List Int) : EvalResult σ :=
  match tokens with
  | [] => ⟨true, m, es, []⟩
  | t :: ts =>
    let r := m.EvalInternal eval hw es ((t :: ts).take batch_size) threads
    if r.ok then
      let r2 := r.m.batchEvalGo eval hw batch_size hbs threads r.es ((t :: ts).drop batch_size)
      ⟨r2.ok, r2.m, r2.es, r.calls ++ r2.calls⟩
    else
      ⟨false, r.m, r.es, r.calls⟩
termination_by tokens.length
decreasing_by simp; omega

/-- `BatchEval(tokens, batch_size, threads)` (llm.h lines 81-93):
consecutive chunks of at most `batch_size`, each run through
`EvalInternal`, stopping at the first failure.  When `batch_size ≤ 0` and
`tokens` is nonempty, the C++ loop never terminates (`start` does not
advance), modelled as `none`; with no tokens the loop body never runs and
the call trivially succeeds. -/
def LLM.BatchEval {σ : Type} (eval : σ → EvalCall → Bool × σ × List ℚ)
    (hw : Int) (m : LLM) (es : σ) (tokens : List Int)
    (batch_size : Int) (threads : Int) : Option (EvalResult σ) :=
  if h : 0 < batch_size then
    some (m.batchEvalGo eval hw batch_size.toNat (by omega) threads es tokens)
  else if tokens.isEmpty then some ⟨true, m, es, []⟩
  else none

/-- `Sample(top_k, top_p, temperature, repetition_penalty, last_n_tokens,
seed)` (llm.h lines 95-117).  Floats are modelled as rationals.  External
inputs are parameters: `sampler` is `gpt_sample_top_k_top_p` (receiving
the vocabulary, the vocabulary-sized tail slice of the logits, the
decoding parameters, the recent-token set and the seeded generator),
`timeNow` is `time(nullptr)`, `mkRng` constructs the `std::mt19937` from
a seed.  The result is `none` only when `GetRecent` hits its
undefined-behaviour case. -/
def LLM.Sample {ρ : Type}
    (sampler : gpt_vocab → List ℚ → Int → ℚ → ℚ → ℚ → Finset Int → ρ → Int)
    (timeNow : Int) (mkRng : Int → ρ) (m : LLM)
    (top_k : Int) (top_p temperature repetition_penalty : ℚ)
    (last_n_tokens seed : Int) : Option Int :=
  if m.logits_ = [] then some m.EosToken
  else
    let last_n_tokens := if last_n_tokens < 0 then m.ContextLength else last_n_tokens
    let seed := if seed < 0 then timeNow else seed
    let rng := mkRng seed
    let recent_tokens : Option (Finset Int) :=
      if repetition_penalty ≠ 1 then m.previous_tokens_.GetRecent last_n_tokens
      else some ∅
    match recent_tokens with
    | none => none
    | some recent =>
      some (sampler m.vocab_ (m.logits_.drop (m.logits_.length - m.VocabSize))
        top_k top_p temperature repetition_penalty recent rng)

/-! ### RingBuffer state characterization -/

/-- Modelled from the spec (section 4.2 `BatchEval`): the partition of a
token sequence into "consecutive chunks of at most `batchSize` (last
chunk may be shorter)", used to compare the `BatchEval` trace against the
spec's description. -/
def specChunks (bs : Nat) (hbs : 0 < bs) : List Int → List (List Int)
  | [] => []
  | t :: ts => (t :: ts).take bs :: specChunks bs hbs ((t :: ts).drop bs)
termination_by l => l.length
decreasing_by simp; omega

theorem lastN_length (l : List Int) (k : Nat) : (lastN l k).length = min k l.length := by
  simp [lastN]; omega

theorem lastN_lastN (l : List Int) (j k : Nat) (h : k ≤ j) :
    lastN (lastN l j) k = lastN l k := by
  simp [lastN, List.drop_drop, List.length_drop]
  congr 1
  omega

theorem bufList_length (c : Nat) (hist : List Int) :
    (bufList c hist).length = min hist.length c := by
  unfold bufList
  split
  · omega
  · simp [lastN_length]
    omega

theorem mkBuffer_append (c : Int) (hist : List Int) (t : Int) :
    mkBuffer c (hist ++ [t]) = (mkBuffer c hist).Add t := by
  simp [mkBuffer, List.foldl_append]

theorem Add_capacity (b : RingBuffer) (t : Int) : (b.Add t).capacity_ = b.capacity_ := rfl

theorem Add_pos (b : RingBuffer) (t : Int) :
    (b.Add t).pos_ = (b.pos_ + 1) % b.capacity_ := rfl

theorem Add_tokens_of_lt (b : RingBuffer) (t : Int) (h : b.Size < b.capacity_) :
    (b.Add t).tokens_ = b.tokens_ ++ [t] := by
  simp [RingBuffer.Add, h]

theorem Add_tokens_of_ge (b : RingBuffer) (t : Int) (h : ¬ b.Size < b.capacity_) :
    (b.Add t).tokens_ = b.tokens_.set b.pos_.toNat t := by
  simp [RingBuffer.Add, h]

/-- One `Add` on a full buffer in rotated form stays in rotated form: the
slot at the cursor `p` is overwritten with the new token, which is
exactly the eviction of the oldest retained element. -/
theorem rot_set_step (cN : Nat) (tail : List Int) (hlen : tail.length = cN) (p : Nat)
    (hp : p < cN) (t : Int) :
    (tail.drop (cN - p) ++ tail.take (cN - p)).set p t
      = (tail.drop 1 ++ [t]).drop (cN - (p + 1) % cN) ++
        (tail.drop 1 ++ [t]).take (cN - (p + 1) % cN) := by
  have hc : 0 < cN := by omega
  have hA : (tail.drop (cN - p)).length = p := by simp [hlen]; omega
  have hL : (tail.drop (cN - p) ++ tail.take (cN - p)).length = cN := by
    simp [hlen]
  rw [List.set_eq_take_cons_drop t (by rw [hL]; exact hp)]
  have htake : (tail.drop (cN - p) ++ tail.take (cN - p)).take p = tail.drop (cN - p) := by
    rw [List.take_append_eq_append_take, hA]
    simp [List.take_of_length_le (le_of_eq hA)]
  have hdrop : (tail.drop (cN - p) ++ tail.take (cN - p)).drop (p + 1)
      = (tail.drop 1).take (cN - p - 1) := by
    rw [List.drop_append_eq_append_drop, hA,
        List.drop_eq_nil_of_le (by omega : (tail.drop (cN - p)).length ≤ p + 1)]
    simp [List.drop_take]
  rw [htake, hdrop]
  rcases Nat.lt_or_ge (p + 1) cN with hlt | hge
  · rw [Nat.mod_eq_of_lt hlt]
    have h1 : (tail.drop 1 ++ [t]).drop (cN - (p + 1))
        = tail.drop (cN - p) ++ [t] := by
      rw [List.drop_append_eq_append_drop, List.drop_drop]
      have e1 : 1 + (cN - (p + 1)) = cN - p := by omega
      rw [e1]
      have e2 : cN - (p + 1) - (tail.drop 1).length = 0 := by simp [hlen]; omega
      rw [e2, List.drop_zero]
    have h2 : (tail.drop 1 ++ [t]).take (cN - (p + 1))
        = (tail.drop 1).take (cN - p - 1) := by
      rw [List.take_append_eq_append_take]
      have e3 : cN - (p + 1) - (tail.drop 1).length = 0 := by simp [hlen]; omega
      rw [e3]
      simp
      omega
    rw [h1, h2, List.append_assoc]
    simp
  · have hpe : p + 1 = cN := by omega
    have e4 : (p + 1) % cN = 0 := by rw [hpe, Nat.mod_self]
    rw [e4, Nat.sub_zero]
    have hT : (tail.drop 1 ++ [t]).length = cN := by simp [hlen]; omega
    rw [List.drop_eq_nil_of_le (le_of_eq hT), List.take_of_length_le (le_of_eq hT)]
    have e5 : cN - p = 1 := by omega
    rw [e5]
    simp

/-- The buffer built from `Init(c)` and the `Add`s of `hist`:
`capacity_ = c`, `pos_ = hist.length % c`, and the backing vector is
`bufList c hist`. -/
theorem mk_spec (c : Nat) (hc : 0 < c) (hist : List Int) :
    (mkBuffer (c : Int) hist).capacity_ = (c : Int) ∧
    (mkBuffer (c : Int) hist).pos_ = ((hist.length % c : Nat) : Int) ∧
    (mkBuffer (c : Int) hist).tokens_ = bufList c hist := by
  induction hist using List.reverseRecOn with
  | nil => simp [mkBuffer, RingBuffer.Init, RingBuffer.Clear, bufList]
  | append_singleton hist t ih =>
    obtain ⟨h1, h2, h3⟩ := ih
    rw [mkBuffer_append]
    have hposstep : ((mkBuffer (c : Int) hist).Add t).pos_
        = (((hist ++ [t]).length % c : Nat) : Int) := by
      rw [Add_pos, h2, h1]
      have hl2 : (hist ++ [t]).length = hist.length + 1 := by simp
      rw [hl2]
      have hcast : ((hist.length % c : Nat) : Int) + 1
          = ((hist.length % c + 1 : Nat) : Int) := by push_cast; ring
      rw [hcast, ← Int.ofNat_emod, Nat.mod_add_mod]
    rcases Nat.lt_or_ge hist.length c with hlt | hge
    · -- still filling: append branch
      have hsz : (mkBuffer (c : Int) hist).Size = (hist.length : Int) := by
        have hmin : min hist.length c = hist.length := by omega
        rw [RingBuffer.Size, h3, bufList_length, hmin]
      have hcond : (mkBuffer (c : Int) hist).Size < (mkBuffer (c : Int) hist).capacity_ := by
        rw [hsz, h1]
        exact_mod_cast hlt
      refine ⟨by rw [Add_capacity, h1], hposstep, ?_⟩
      rw [Add_tokens_of_lt _ _ hcond, h3]
      unfold bufList
      rw [if_pos (by omega : hist.length ≤ c), if_pos (by simp; omega)]
    · -- full: overwrite branch
      have hsz : (mkBuffer (c : Int) hist).Size = (c : Int) := by
        have hmin : min hist.length c = c := by omega
        rw [RingBuffer.Size, h3, bufList_length, hmin]
      have hcond : ¬ (mkBuffer (c : Int) hist).Size < (mkBuffer (c : Int) hist).capacity_ := by
        rw [hsz, h1]
        omega
      have hptn : (mkBuffer (c : Int) hist).pos_.toNat = hist.length % c := by
        rw [h2, Int.toNat_natCast]
      have htail : lastN (hist ++ [t]) c = (lastN hist c).drop 1 ++ [t] := by
        unfold lastN
        rw [List.drop_drop, List.length_append, List.drop_append_eq_append_drop]
        have e1 : hist.length + [t].length - c = hist.length - c + 1 := by
          simp only [List.length_singleton]; omega
        rw [e1]
        have e2 : hist.length - c + 1 - hist.length = 0 := by omega
        rw [e2, List.drop_zero]
      have hform : bufList c hist
          = (lastN hist c).drop (c - hist.length % c) ++
            (lastN hist c).take (c - hist.length % c) := by
        unfold bufList
        rcases Nat.lt_or_ge c hist.length with hgt | hle2
        · rw [if_neg (by omega)]
        · have hme : hist.length = c := by omega
          rw [if_pos (by omega)]
          have htl : lastN hist c = hist := by
            unfold lastN
            have h0 : hist.length - c = 0 := by omega
            rw [h0, List.drop_zero]
          have hp0 : hist.length % c = 0 := by rw [hme, Nat.mod_self]
          rw [htl, hp0, Nat.sub_zero,
              List.drop_eq_nil_of_le (by omega : hist.length ≤ c),
              List.take_of_length_le (by omega : hist.length ≤ c),
              List.nil_append]
      refine ⟨by rw [Add_capacity, h1], hposstep, ?_⟩
      rw [Add_tokens_of_ge _ _ hcond, h3, hptn, hform,
          rot_set_step c (lastN hist c) (by rw [lastN_length]; omega) (hist.length % c)
            (Nat.mod_lt _ hc) t]
      unfold bufList
      rw [if_neg (by simp; omega), htail]
      have hmod : (hist ++ [t]).length % c = (hist.length % c + 1) % c := by
        rw [List.length_append, List.length_singleton, Nat.mod_add_mod]
      rw [hmod]


/-- Restatement of the overwrite form of `bufList` valid for the whole
full regime `c ≤ hist.length`, including the boundary `hist.length = c`. -/
theorem bufList_rot (c : Nat) (hc : 0 < c) (hist : List Int) (hge : c ≤ hist.length) :
    bufList c hist
      = (lastN hist c).drop (c - hist.length % c) ++
        (lastN hist c).take (c - hist.length % c) := by
  unfold bufList
  rcases Nat.lt_or_ge c hist.length with hgt | hle2
  · rw [if_neg (by omega)]
  · have hme : hist.length = c := by omega
    rw [if_pos (by omega)]
    have htl : lastN hist c = hist := by
      unfold lastN
      have h0 : hist.length - c = 0 := by omega
      rw [h0, List.drop_zero]
    have hp0 : hist.length % c = 0 := by rw [hme, Nat.mod_self]
    rw [htl, hp0, Nat.sub_zero,
        List.drop_eq_nil_of_le (by omega : hist.length ≤ c),
        List.take_of_length_le (by omega : hist.length ≤ c),
        List.nil_append]

/-- `GetRecent` on a still-filling buffer (`tokens_ = hist`,
`pos_ = hist.length`): the last `min(size, n)` inserted tokens. -/
theorem getRecent_filling (c : Int) (hist : List Int) (n : Int) (hn : 0 < n) :
    (RingBuffer.mk c hist (hist.length : Int)).GetRecent n
      = some (lastN hist (min (hist.length : Int) n).toNat).toFinset := by
  rcases Nat.eq_zero_or_pos hist.length with hm0 | hmpos
  · have he : hist = [] := List.length_eq_zero.mp hm0
    subst he
    simp [RingBuffer.GetRecent, RingBuffer.Size, lastN, min_eq_left hn.le]
  · obtain ⟨k, hkeq, hk1, hkm⟩ :
        ∃ k : Nat, min (hist.length : Int) n = (k : Int) ∧ 1 ≤ k ∧ k ≤ hist.length :=
      ⟨(min (hist.length : Int) n).toNat, by omega, by omega, by omega⟩
    simp only [RingBuffer.GetRecent, RingBuffer.Size]
    rw [hkeq, if_neg (by omega : ¬ ((k : Int) = 0)),
        if_neg (by omega : ¬ ((hist.length : Int) = 0))]
    have hstart : ((hist.length : Int) - (k : Int) + (hist.length : Int)) % (hist.length : Int)
        = ((hist.length - k : Nat) : Int) := by
      have e1 : ((hist.length : Int) - (k : Int) + (hist.length : Int))
          = ((hist.length - k + hist.length : Nat) : Int) := by omega
      rw [e1, ← Int.ofNat_emod, Nat.add_mod_right, Nat.mod_eq_of_lt (by omega)]
    rw [hstart,
        if_pos (by omega : ((hist.length - k : Nat) : Int) < (hist.length : Int)),
        Int.toNat_natCast,
        show ((hist.length : Int) - ((hist.length - k : Nat) : Int)).toNat = k by omega,
        Int.toNat_natCast,
        List.take_of_length_le (by simp; omega)]
    rfl

/-- `GetRecent` on a full buffer in rotated form: the last `min(c, n)`
elements of the retained window `tail`, across wrap-around. -/
theorem getRecent_full (c : Int) (cN : Nat) (hc : 0 < cN) (tail : List Int)
    (hlen : tail.length = cN) (p : Nat) (hp : p < cN) (n : Int) (hn : 0 < n) :
    (RingBuffer.mk c (tail.drop (cN - p) ++ tail.take (cN - p)) (p : Int)).GetRecent n
      = some (lastN tail (min (cN : Int) n).toNat).toFinset := by
  have hA : (tail.drop (cN - p)).length = p := by simp [hlen]; omega
  have hL : (tail.drop (cN - p) ++ tail.take (cN - p)).length = cN := by
    simp [hlen]
  obtain ⟨k, hkeq, hk1, hkc⟩ :
      ∃ k : Nat, min ((cN : Nat) : Int) n = (k : Int) ∧ 1 ≤ k ∧ k ≤ cN :=
    ⟨(min ((cN : Nat) : Int) n).toNat, by omega, by omega, by omega⟩
  simp only [RingBuffer.GetRecent, RingBuffer.Size, hL]
  rw [hkeq, if_neg (by omega : ¬ ((k : Int) = 0)),
      if_neg (by omega : ¬ ((cN : Int) = 0))]
  have hstart : ((p : Int) - (k : Int) + (cN : Int)) % (cN : Int)
      = (((p + cN - k) % cN : Nat) : Int) := by
    have e1 : ((p : Int) - (k : Int) + (cN : Int)) = ((p + cN - k : Nat) : Int) := by omega
    rw [e1, ← Int.ofNat_emod]
  rw [hstart]
  rcases le_or_lt k p with hkp | hpk
  · -- no wrap: one contiguous run [start, pos)
    have hs : (p + cN - k) % cN = p - k := by
      rw [show p + cN - k = (p - k) + cN by omega, Nat.add_mod_right,
          Nat.mod_eq_of_lt (by omega)]
    rw [hs, if_pos (by omega : ((p - k : Nat) : Int) < (p : Int)),
        Int.toNat_natCast,
        show ((p : Int) - ((p - k : Nat) : Int)).toNat = k by omega]
    have hlist : ((tail.drop (cN - p) ++ tail.take (cN - p)).drop (p - k)).take k
        = tail.drop (cN - k) := by
      rw [List.drop_append_eq_append_drop, hA,
          show p - k - p = 0 by omega, List.drop_zero, List.drop_drop,
          show cN - p + (p - k) = cN - k by omega,
          List.take_append_eq_append_take,
          show k - (tail.drop (cN - k)).length = 0 by simp [hlen]; omega,
          List.take_zero, List.append_nil,
          List.take_of_length_le (by simp [hlen]; omega)]
    rw [hlist]
    unfold lastN
    rw [hlen, Int.toNat_natCast]
  · -- wrap-around: tail run plus head run
    have hs : (p + cN - k) % cN = p + cN - k := Nat.mod_eq_of_lt (by omega)
    rw [hs, if_neg (by omega : ¬ (((p + cN - k : Nat) : Int) < (p : Int))),
        Int.toNat_natCast, Int.toNat_natCast]
    have hx : (tail.drop (cN - p) ++ tail.take (cN - p)).drop (p + cN - k)
        = (tail.drop (cN - k)).take (k - p) := by
      rw [List.drop_append_eq_append_drop,
          List.drop_eq_nil_of_le (by rw [hA]; omega),
          List.nil_append, hA,
          show p + cN - k - p = cN - k by omega,
          List.drop_take]
      congr 1
      omega
    have hy : (tail.drop (cN - p) ++ tail.take (cN - p)).take p
        = tail.drop (cN - p) := by
      rw [List.take_append_eq_append_take, hA, Nat.sub_self,
          List.take_zero, List.append_nil, List.take_of_length_le (le_of_eq hA)]
    rw [hx, hy, ← List.toFinset_append]
    have hjoin : (tail.drop (cN - k)).take (k - p) ++ tail.drop (cN - p)
        = tail.drop (cN - k) := by
      have h := List.drop_take_append_drop tail (cN - k) (k - p)
      rwa [show cN - k + (k - p) = cN - p by omega] at h
    rw [hjoin]
    unfold lastN
    rw [hlen, Int.toNat_natCast]

/-- Structure-eta form of `mk_spec`: the buffer as an explicit literal. -/
theorem mk_eq (c : Nat) (hc : 0 < c) (hist : List Int) :
    mkBuffer (c : Int) hist
      = RingBuffer.mk (c : Int) (bufList c hist) ((hist.length % c : Nat) : Int) := by
  obtain ⟨h1, h2, h3⟩ := mk_spec c hc hist
  rcases hmk : mkBuffer (c : Int) hist with ⟨cap, tok, pos⟩
  rw [hmk] at h1 h2 h3
  dsimp only at h1 h2 h3
  rw [h1, h2, h3]

/-- `GetRecent(n)` for `n > 0` on any buffer reachable from `Init(c)`,
`c > 0`: exactly the distinct ids among the last `min(Size(), n)`
inserted tokens. -/
theorem getRecent_eq_lastN (c : Int) (hc : 0 < c) (hist : List Int) (n : Int) (hn : 0 < n) :
    (mkBuffer c hist).GetRecent n
      = some (lastN hist (min (mkBuffer c hist).Size n).toNat).toFinset := by
  obtain ⟨cN, rfl⟩ : ∃ cN : Nat, c = (cN : Int) :=
    ⟨c.toNat, (Int.toNat_of_nonneg hc.le).symm⟩
  have hcN : 0 < cN := by exact_mod_cast hc
  have hsz : (mkBuffer (cN : Int) hist).Size = ((min hist.length cN : Nat) : Int) := by
    rw [RingBuffer.Size, (mk_spec cN hcN hist).2.2, bufList_length]
  rcases Nat.lt_or_ge hist.length cN with hlt | hge
  · have hb : mkBuffer (cN : Int) hist
        = RingBuffer.mk (cN : Int) hist (hist.length : Int) := by
      rw [mk_eq cN hcN hist]
      unfold bufList
      rw [if_pos (by omega : hist.length ≤ cN), Nat.mod_eq_of_lt hlt]
    rw [hsz, show min hist.length cN = hist.length by omega, hb]
    exact getRecent_filling _ hist n hn
  · have hb : mkBuffer (cN : Int) hist
        = RingBuffer.mk (cN : Int)
            ((lastN hist cN).drop (cN - hist.length % cN) ++
             (lastN hist cN).take (cN - hist.length % cN))
            ((hist.length % cN : Nat) : Int) := by
      rw [mk_eq cN hcN hist, bufList_rot cN hcN hist hge]
    rw [hsz, show min hist.length cN = cN by omega, hb]
    rw [getRecent_full _ cN hcN (lastN hist cN) (by rw [lastN_length]; omega)
          (hist.length % cN) (Nat.mod_lt _ hcN) n hn]
    rw [lastN_lastN hist cN _ (by omega)]

/-! ### EvalInternal and BatchEval -/

theorem evalInternal_calls {σ : Type} (eval : σ → EvalCall → Bool × σ × List ℚ)
    (hw : Int) (m : LLM) (es : σ) (tokens : List Int) (threads : Int) :
    (m.EvalInternal eval hw es tokens threads).calls
      = [⟨tokens, if threads < 0 then min hw 4 else threads,
          min (m.ContextLength - tokens.length) m.previous_tokens_.Size⟩] := by
  unfold LLM.EvalInternal
  dsimp only
  generalize (⟨tokens, if threads < 0 then min hw 4 else threads,
      min (m.ContextLength - tokens.length) m.previous_tokens_.Size⟩ : EvalCall) = call
  split <;> rfl

theorem evalInternal_prev_ok {σ : Type} (eval : σ → EvalCall → Bool × σ × List ℚ)
    (hw : Int) (m : LLM) (es : σ) (tokens : List Int) (threads : Int)
    (h : (m.EvalInternal eval hw es tokens threads).ok = true) :
    (m.EvalInternal eval hw es tokens threads).m.previous_tokens_
      = tokens.foldl RingBuffer.Add m.previous_tokens_ := by
  unfold LLM.EvalInternal at h ⊢
  dsimp only at h ⊢
  generalize (⟨tokens, if threads < 0 then min hw 4 else threads,
      min (m.ContextLength - tokens.length) m.previous_tokens_.Size⟩ : EvalCall) = call at h ⊢
  split at h
  · rename_i hc
    rw [if_pos hc]
  · simp at h

theorem evalInternal_prev_fail {σ : Type} (eval : σ → EvalCall → Bool × σ × List ℚ)
    (hw : Int) (m : LLM) (es : σ) (tokens : List Int) (threads : Int)
    (h : (m.EvalInternal eval hw es tokens threads).ok = false) :
    (m.EvalInternal eval hw es tokens threads).m.previous_tokens_
      = m.previous_tokens_ := by
  unfold LLM.EvalInternal at h ⊢
  dsimp only at h ⊢
  generalize (⟨tokens, if threads < 0 then min hw 4 else threads,
      min (m.ContextLength - tokens.length) m.previous_tokens_.Size⟩ : EvalCall) = call at h ⊢
  split at h
  · simp at h
  · rename_i hc
    rw [if_neg hc]

theorem evalInternal_ok_eq {σ : Type} (eval : σ → EvalCall → Bool × σ × List ℚ)
    (hw : Int) (m : LLM) (es : σ) (tokens : List Int) (threads : Int) :
    (m.EvalInternal eval hw es tokens threads).ok
      = (eval es ⟨tokens, if threads < 0 then min hw 4 else threads,
          min (m.ContextLength - tokens.length) m.previous_tokens_.Size⟩).1 := by
  unfold LLM.EvalInternal
  dsimp only
  generalize (⟨tokens, if threads < 0 then min hw 4 else threads,
      min (m.ContextLength - tokens.length) m.previous_tokens_.Size⟩ : EvalCall) = call
  split <;> simp_all

theorem specChunks_cons (bs : Nat) (hbs : 0 < bs) (t : Int) (ts : List Int) :
    specChunks bs hbs (t :: ts)
      = (t :: ts).take bs :: specChunks bs hbs ((t :: ts).drop bs) := by
  rw [specChunks]

theorem specChunks_flatten (bs : Nat) (hbs : 0 < bs) (l : List Int) :
    (specChunks bs hbs l).flatten = l := by
  generalize hg : l.length = N
  induction N using Nat.strong_induction_on generalizing l with
  | _ N IH =>
    match l with
    | [] => rw [specChunks]; rfl
    | t :: ts =>
      have hN : ts.length + 1 = N := by simpa using hg
      rw [specChunks_cons]
      simp only [List.flatten_cons]
      rw [IH ((t :: ts).drop bs).length (by simp; omega) _ rfl]
      exact List.take_append_drop bs (t :: ts)

theorem specChunks_mem_length (bs : Nat) (hbs : 0 < bs) (l : List Int) :
    ∀ ch ∈ specChunks bs hbs l, ch.length ≤ bs ∧ ch ≠ [] := by
  generalize hg : l.length = N
  induction N using Nat.strong_induction_on generalizing l with
  | _ N IH =>
    match l with
    | [] => rw [specChunks]; intro ch hch; simp at hch
    | t :: ts =>
      have hN : ts.length + 1 = N := by simpa using hg
      rw [specChunks_cons]
      intro ch hch
      rcases List.mem_cons.mp hch with hc | hc
      · subst hc
        refine ⟨by simp, ?_⟩
        simp only [ne_eq, List.take_eq_nil_iff]
        push_neg
        exact ⟨by omega, by simp⟩
      · exact IH ((t :: ts).drop bs).length (by simp; omega) _ rfl ch hc

theorem specChunks_dropLast_length (bs : Nat) (hbs : 0 < bs) (l : List Int) :
    ∀ ch ∈ (specChunks bs hbs l).dropLast, ch.length = bs := by
  generalize hg : l.length = N
  induction N using Nat.strong_induction_on generalizing l with
  | _ N IH =>
    match l with
    | [] => rw [specChunks]; intro ch hch; simp at hch
    | t :: ts =>
      have hN : ts.length + 1 = N := by simpa using hg
      rw [specChunks_cons]
      rcases eq_or_ne ((t :: ts).drop bs) [] with hnil | hne
      · rw [hnil, specChunks]
        intro ch hch
        simp at hch
      · have hlt : bs < (t :: ts).length := by
          by_contra hle
          exact hne (List.drop_eq_nil_of_le (by omega))
        cases hr : specChunks bs hbs ((t :: ts).drop bs) with
        | nil =>
          exfalso
          cases hd : (t :: ts).drop bs with
          | nil => exact hne hd
          | cons a as => rw [hd, specChunks_cons] at hr; simp at hr
        | cons c cs =>
          rw [List.dropLast_cons₂]
          intro ch hch
          rcases List.mem_cons.mp hch with hc | hc
          · subst hc
            simp only [List.length_take]
            omega
          · exact IH ((t :: ts).drop bs).length (by simp; omega) _ rfl ch
              (by rw [hr]; exact hc)

/-- Master characterization of the `BatchEval` loop body: on success the
`Eval` trace is exactly the spec's chunk partition and every token has
been committed; on failure the trace is a nonempty prefix of the
partition and exactly the chunks before the failing one are committed. -/
theorem batchEvalGo_spec {σ : Type} (eval : σ → EvalCall → Bool × σ × List ℚ)
    (hw : Int) (bs : Nat) (hbs : 0 < bs) (threads : Int) (tokens : List Int)
    (m : LLM) (es : σ) :
    ((m.batchEvalGo eval hw bs hbs threads es tokens).ok = true →
       (m.batchEvalGo eval hw bs hbs threads es tokens).calls.map EvalCall.tokens
         = specChunks bs hbs tokens ∧
       (m.batchEvalGo eval hw bs hbs threads es tokens).m.previous_tokens_
         = tokens.foldl RingBuffer.Add m.previous_tokens_) ∧
    ((m.batchEvalGo eval hw bs hbs threads es tokens).ok = false →
       (m.batchEvalGo eval hw bs hbs threads es tokens).calls ≠ [] ∧
       (m.batchEvalGo eval hw bs hbs threads es tokens).calls.map EvalCall.tokens
         = (specChunks bs hbs tokens).take
             (m.batchEvalGo eval hw bs hbs threads es tokens).calls.length ∧
       (m.batchEvalGo eval hw bs hbs threads es tokens).m.previous_tokens_
         = (((m.batchEvalGo eval hw bs hbs threads es tokens).calls.dropLast.map
              EvalCall.tokens).flatten).foldl RingBuffer.Add m.previous_tokens_) := by
  generalize hg : tokens.length = N
  induction N using Nat.strong_induction_on generalizing tokens m es with
  | _ N IH =>
    match tokens with
    | [] =>
      rw [LLM.batchEvalGo]
      exact ⟨fun _ => ⟨by rw [specChunks]; rfl, rfl⟩, fun h => by simp at h⟩
    | t :: ts =>
      have hN : ts.length + 1 = N := by simpa using hg
      rw [LLM.batchEvalGo]
      dsimp only
      have hcalls := evalInternal_calls eval hw m es ((t :: ts).take bs) threads
      cases hb : (m.EvalInternal eval hw es ((t :: ts).take bs) threads).ok with
      | true =>
        rw [if_pos rfl]
        dsimp only
        obtain ⟨hs2, hf2⟩ :=
          IH ((t :: ts).drop bs).length (by simp; omega) ((t :: ts).drop bs)
            (m.EvalInternal eval hw es ((t :: ts).take bs) threads).m
            (m.EvalInternal eval hw es ((t :: ts).take bs) threads).es rfl
        constructor
        · intro hok
          obtain ⟨ha, hb2⟩ := hs2 hok
          constructor
          · rw [List.map_append, hcalls, ha, specChunks_cons]
            rfl
          · rw [hb2, evalInternal_prev_ok eval hw m es ((t :: ts).take bs) threads hb,
                ← List.foldl_append, List.take_append_drop]
        · intro hok
          obtain ⟨hne, hpref, hprev⟩ := hf2 hok
          refine ⟨by simp [hcalls], ?_, ?_⟩
          · rw [List.map_append, hcalls, hpref, specChunks_cons, List.length_append]
            simp [Nat.add_comm]
          · rw [hprev, evalInternal_prev_ok eval hw m es ((t :: ts).take bs) threads hb,
                List.dropLast_append_of_ne_nil _ hne, List.map_append, hcalls,
                List.flatten_append, List.foldl_append]
            simp
      | false =>
        rw [if_neg (by simp)]
        constructor
        · intro h
          simp at h
        · intro _
          refine ⟨by simp [hcalls], ?_, ?_⟩
          · rw [hcalls, specChunks_cons]
            rfl
          · rw [hcalls]
            exact evalInternal_prev_fail eval hw m es ((t :: ts).take bs) threads hb

/-! ### Claims -/

/-- C1: for every buffer built by `Init(capacity)` with `capacity > 0` and
any sequence of `Add` calls, `GetRecent(n)` with `n > 0` returns exactly
the set of distinct token ids among the last `min(Size(), n)` tokens
inserted (older tokens beyond the retained window are absent), including
across wrap-around; in particular, after `Init(3)`, `Add 10, 11, 12, 13`:
`GetRecent 2 = {12, 13}` and `GetRecent 10 = {11, 12, 13}`. -/
theorem c1_getRecent_window :
    (∀ (c : Int), 0 < c → ∀ (hist : List Int) (n : Int), 0 < n →
        (mkBuffer c hist).GetRecent n
          = some (lastN hist (min (mkBuffer c hist).Size n).toNat).toFinset) ∧
    (mkBuffer 3 [10, 11, 12, 13]).GetRecent 2 = some ({12, 13} : Finset Int) ∧
    (mkBuffer 3 [10, 11, 12, 13]).GetRecent 10 = some ({11, 12, 13} : Finset Int) :=
  ⟨fun c hc hist n hn => getRecent_eq_lastN c hc hist n hn, by decide, by decide⟩

theorem c1_witness :
    (mkBuffer 3 [7, 8, 9, 9]).GetRecent 2
      = some (lastN [7, 8, 9, 9] (min (mkBuffer 3 [7, 8, 9, 9]).Size 2).toNat).toFinset :=
  c1_getRecent_window.1 3 (by norm_num) [7, 8, 9, 9] 2 (by norm_num)

/-- C2 counterexample: `GetRecent(-1)` on the one-element buffer
`Init(3); Add(10)` is not the empty set — the code only early-returns
when the clamped `n` equals zero, so a negative `n` falls through and
collects the circular range; here it returns `{10}`. -/
theorem c2_counterexample :
    (mkBuffer 3 [10]).GetRecent (-1) = some ({10} : Finset Int) ∧
    ¬ ((mkBuffer 3 [10]).GetRecent (-1) = some (∅ : Finset Int)) := by
  refine ⟨by decide, by decide⟩

/-- C2 amended: `GetRecent(0)` returns the empty set on every buffer, and
`GetRecent(n)` for every `n ≥ 0` returns the empty set on an empty
buffer.  (As stated, the claim fails for `n < 0` on a nonempty buffer,
where the clamp `min(size, n)` is negative, not zero, and the circular
range is collected; for `n < 0` on an empty buffer the C++ computes
`% 0`.) -/
theorem c2_amended_empty (b : RingBuffer) (n : Int) :
    (n = 0 → b.GetRecent n = some ∅) ∧
    (0 ≤ n → b.Size = 0 → b.GetRecent n = some ∅) := by
  constructor
  · intro h
    subst h
    have h0 : min b.Size (0 : Int) = 0 := by
      have hnn : (0 : Int) ≤ b.Size := Int.ofNat_nonneg _
      omega
    simp only [RingBuffer.GetRecent]
    rw [h0, if_pos rfl]
  · intro hn hs
    simp only [RingBuffer.GetRecent]
    rw [hs]
    have h0 : min (0 : Int) n = 0 := by omega
    rw [h0, if_pos rfl]

theorem c2_amended_witness :
    (mkBuffer 3 [10]).GetRecent 0 = some ∅ ∧
    (mkBuffer 3 ([] : List Int)).GetRecent 5 = some ∅ :=
  ⟨(c2_amended_empty (mkBuffer 3 [10]) 0).1 rfl,
   (c2_amended_empty (mkBuffer 3 []) 5).2 (by norm_num) (by decide)⟩

theorem specChunks_congr (a b : Nat) (ha : 0 < a) (hb : 0 < b) (h : a = b)
    (l : List Int) : specChunks a ha l = specChunks b hb l := by
  subst h
  rfl

/-- C3: a single internal evaluation step passes
`n_past = min(n_ctx - batchLength, occupancy)` to the external `Eval`
capability; in particular for `n_ctx = 8`, occupancy 5 and batch length 3
it passes `n_past = 5`. -/
theorem c3_n_past_min :
    (∀ (σ : Type) (eval : σ → EvalCall → Bool × σ × List ℚ) (hw : Int) (m : LLM)
        (es : σ) (tokens : List Int) (threads : Int),
      (m.EvalInternal eval hw es tokens threads).calls.map EvalCall.n_past
        = [min (m.ContextLength - tokens.length) m.previous_tokens_.Size]) ∧
    ((⟨8, ⟨[], [], []⟩, [], mkBuffer 8 [1, 2, 3, 4, 5], true⟩ : LLM).EvalInternal
        (fun (es : Unit) (_ : EvalCall) => (true, es, ([] : List ℚ))) 4 () [6, 7, 9]
        1).calls.map EvalCall.n_past = [5] := by
  constructor
  · intro σ eval hw m es tokens threads
    rw [evalInternal_calls]
    rfl
  · decide

/-- C4: `BatchEval` evaluates the tokens as consecutive chunks of at most
`batchSize` (only the last shorter), in order, one internal evaluation
step per chunk; for 10 tokens with `batchSize = 4` exactly 3 calls of
lengths 4, 4, 2 occur and on success the RecencyBuffer occupancy is
`min(10, capacity)` (capacity 8 here). -/
theorem c4_batchEval_chunks :
    (∀ (σ : Type) (eval : σ → EvalCall → Bool × σ × List ℚ) (hw : Int) (m : LLM)
        (es : σ) (tokens : List Int) (bs : Nat) (threads : Int) (hbs : 0 < bs)
        (r : EvalResult σ),
      m.BatchEval eval hw es tokens (bs : Int) threads = some r →
      r.ok = true →
      r.calls.map EvalCall.tokens = specChunks bs hbs tokens) ∧
    (∀ (bs : Nat) (hbs : 0 < bs) (tokens : List Int),
      (specChunks bs hbs tokens).flatten = tokens ∧
      (∀ ch ∈ specChunks bs hbs tokens, ch.length ≤ bs ∧ ch ≠ []) ∧
      (∀ ch ∈ (specChunks bs hbs tokens).dropLast, ch.length = bs)) ∧
    ((⟨8, ⟨[], [], []⟩, [], mkBuffer 8 [], true⟩ : LLM).BatchEval
        (fun (es : Unit) (_ : EvalCall) => (true, es, ([] : List ℚ))) 4 ()
        [0, 1, 2, 3, 4, 5, 6, 7, 8, 9] 4 1).map
      (fun r => r.calls.map (fun c => c.tokens.length)) = some [4, 4, 2] ∧
    ((⟨8, ⟨[], [], []⟩, [], mkBuffer 8 [], true⟩ : LLM).BatchEval
        (fun (es : Unit) (_ : EvalCall) => (true, es, ([] : List ℚ))) 4 ()
        [0, 1, 2, 3, 4, 5, 6, 7, 8, 9] 4 1).map
      (fun r => r.m.previous_tokens_.Size) = some (min 10 8) := by
  refine ⟨?_, ?_, ?_, ?_⟩
  case refine_3 =>
    simp only [LLM.BatchEval]
    norm_num
    simp [LLM.batchEvalGo, LLM.EvalInternal]
  case refine_4 =>
    simp only [LLM.BatchEval]
    norm_num
    simp [LLM.batchEvalGo, LLM.EvalInternal, RingBuffer.Size, RingBuffer.Add,
      mkBuffer, RingBuffer.Init, RingBuffer.Clear, LLM.ContextLength]
  · intro σ eval hw m es tokens bs threads hbs r hr hok
    unfold LLM.BatchEval at hr
    rw [dif_pos (by exact_mod_cast hbs : (0 : Int) < (bs : Int))] at hr
    have hXr := Option.some.inj hr
    subst hXr
    have hmain :=
      (batchEvalGo_spec eval hw (bs : Int).toNat (by simpa using hbs) threads tokens
        m es).1 hok
    rw [hmain.1]
    exact specChunks_congr _ _ _ hbs (Int.toNat_natCast bs) tokens
  · intro bs hbs tokens
    exact ⟨specChunks_flatten bs hbs tokens, specChunks_mem_length bs hbs tokens,
      specChunks_dropLast_length bs hbs tokens⟩

theorem c4_witness :
    ((⟨2, ⟨[], [], []⟩, [], mkBuffer 2 [], true⟩ : LLM).batchEvalGo
        (fun (es : Unit) (_ : EvalCall) => (true, es, ([] : List ℚ))) 4 (2 : Int).toNat
        (by norm_num) 1 () [1, 2, 3]).calls.map EvalCall.tokens = [[1, 2], [3]] :=
  (c4_batchEval_chunks.1 Unit (fun es _ => (true, es, [])) 4 _ () [1, 2, 3] 2 1
      (by norm_num) _ rfl (by simp [LLM.batchEvalGo, LLM.EvalInternal])).trans
    (by simp [specChunks])

/-- C5: when the external `Eval` fails for a batch, the internal
evaluation step returns failure and the RecencyBuffer is unchanged; on
success every token of the batch is appended in order; consequently
`BatchEval` stops at the first failing chunk and exactly the tokens of
the previously successful chunks remain committed. -/
theorem c5_failure_no_commit :
    (∀ (σ : Type) (eval : σ → EvalCall → Bool × σ × List ℚ) (hw : Int) (m : LLM)
        (es : σ) (tokens : List Int) (threads : Int),
      ((m.EvalInternal eval hw es tokens threads).ok
        = (eval es ⟨tokens, if threads < 0 then min hw 4 else threads,
            min (m.ContextLength - tokens.length) m.previous_tokens_.Size⟩).1) ∧
      ((m.EvalInternal eval hw es tokens threads).ok = false →
        (m.EvalInternal eval hw es tokens threads).m.previous_tokens_
          = m.previous_tokens_) ∧
      ((m.EvalInternal eval hw es tokens threads).ok = true →
        (m.EvalInternal eval hw es tokens threads).m.previous_tokens_
          = tokens.foldl RingBuffer.Add m.previous_tokens_)) ∧
    (∀ (σ : Type) (eval : σ → EvalCall → Bool × σ × List ℚ) (hw : Int) (bs : Nat)
        (hbs : 0 < bs) (threads : Int) (m : LLM) (es : σ) (tokens : List Int),
      (m.batchEvalGo eval hw bs hbs threads es tokens).ok = false →
        (m.batchEvalGo eval hw bs hbs threads es tokens).calls ≠ [] ∧
        (m.batchEvalGo eval hw bs hbs threads es tokens).calls.map EvalCall.tokens
          = (specChunks bs hbs tokens).take
              (m.batchEvalGo eval hw bs hbs threads es tokens).calls.length ∧
        (m.batchEvalGo eval hw bs hbs threads es tokens).m.previous_tokens_
          = (((m.batchEvalGo eval hw bs hbs threads es tokens).calls.dropLast.map
               EvalCall.tokens).flatten).foldl RingBuffer.Add m.previous_tokens_) :=
  ⟨fun σ eval hw m es tokens threads =>
     ⟨evalInternal_ok_eq eval hw m es tokens threads,
      evalInternal_prev_fail eval hw m es tokens threads,
      evalInternal_prev_ok eval hw m es tokens threads⟩,
   fun σ eval hw bs hbs threads m es tokens =>
     (batchEvalGo_spec eval hw bs hbs threads tokens m es).2⟩

theorem c5_witness :
    (((⟨4, ⟨[], [], []⟩, [], mkBuffer 4 [7], true⟩ : LLM).EvalInternal
        (fun (es : Unit) (_ : EvalCall) => (false, es, ([] : List ℚ))) 4 () [1, 2]
        1).m.previous_tokens_
      = (⟨4, ⟨[], [], []⟩, [], mkBuffer 4 [7], true⟩ : LLM).previous_tokens_) ∧
    ((⟨4, ⟨[], [], []⟩, [], mkBuffer 4 [7], true⟩ : LLM).batchEvalGo
        (fun (es : Unit) (_ : EvalCall) => (false, es, ([] : List ℚ))) 4 2
        (by norm_num) 1 () [1, 2, 3]).calls ≠ [] :=
  ⟨(c5_failure_no_commit.1 Unit (fun es _ => (false, es, [])) 4 _ () [1, 2] 1).2.1
     (by decide),
   ((c5_failure_no_commit.2 Unit (fun es _ => (false, es, [])) 4 2 (by norm_num) 1 _
       () [1, 2, 3]) (by simp [LLM.batchEvalGo, LLM.EvalInternal])).1⟩

/-- C6: `Init` is exactly-once: on an already-initialized session a
further `Init` returns failure, mutates nothing and never invokes `Load`;
a successful `Init` marks the session initialized; and when `Load` fails
on an uninitialized session, the session stays uninitialized. -/
theorem c6_init_exactly_once :
    (∀ (σ : Type) (load : σ → gpt_vocab → String → Bool × σ × gpt_vocab × Int)
        (m : LLM) (es : σ) (f : String),
      m.initialized_ = true → m.Init load es f = (false, m, es, [])) ∧
    (∀ (σ : Type) (load : σ → gpt_vocab → String → Bool × σ × gpt_vocab × Int)
        (m : LLM) (es : σ) (f : String),
      (m.Init load es f).1 = true → (m.Init load es f).2.1.initialized_ = true) ∧
    (∀ (σ : Type) (load : σ → gpt_vocab → String → Bool × σ × gpt_vocab × Int)
        (m : LLM) (es : σ) (f : String),
      m.initialized_ = false →
      (load es m.vocab_ f).1 = false →
      (m.Init load es f).2.1.initialized_ = false) := by
  refine ⟨?_, ?_, ?_⟩
  · intro σ load m es f h
    unfold LLM.Init
    rw [if_pos h]
  · intro σ load m es f h
    unfold LLM.Init at h ⊢
    dsimp only at h ⊢
    by_cases hi : m.initialized_ = true
    · rw [if_pos hi] at h
      simp at h
    · rw [if_neg hi] at h ⊢
      by_cases hl : (load es m.vocab_ f).1 = true
      · rw [if_pos hl]
      · rw [if_neg hl] at h
        simp at h
  · intro σ load m es f hi hl
    unfold LLM.Init
    dsimp only
    rw [if_neg (by simp [hi]), if_neg (by simp [hl])]
    exact hi


theorem c6_witness :
    ((⟨4, ⟨[], [], []⟩, [], mkBuffer 4 [], true⟩ : LLM).Init
        (fun (es : Unit) (v : gpt_vocab) (_ : String) => (false, es, v, (0 : Int)))
        () "model.bin"
      = (false, ⟨4, ⟨[], [], []⟩, [], mkBuffer 4 [], true⟩, (), [])) ∧
    ((⟨-1, ⟨[], [], []⟩, [], ⟨0, [], 0⟩, false⟩ : LLM).Init
        (fun (es : Unit) (v : gpt_vocab) (_ : String) => (false, es, v, (0 : Int)))
        () "model.bin").2.1.initialized_ = false :=
  ⟨c6_init_exactly_once.1 Unit (fun es v _ => (false, es, v, 0)) _ () "model.bin" rfl,
   c6_init_exactly_once.2.2 Unit (fun es v _ => (false, es, v, 0)) _ () "model.bin"
     rfl rfl⟩

/-- C7: `IsEosToken` is true exactly on the canonical EOS id — regardless
of special tokens — and otherwise exactly when the vocabulary has at
least one special token registered and the token detokenizes to the
literal `"### End"`. -/
theorem c7_isEosToken_iff (m : LLM) (t : Int) :
    m.IsEosToken t = true ↔
      (t = m.EosToken ∨
        (m.vocab_.special_tokens ≠ [] ∧ m.Detokenize t = "### End")) := by
  unfold LLM.IsEosToken
  by_cases h1 : t = m.EosToken
  · simp [h1]
  · rw [if_neg h1]
    by_cases h2 : m.vocab_.special_tokens ≠ []
    · rw [if_pos h2]
      simp [h1, h2]
    · rw [if_neg h2]
      simp [h1, h2]

/-- C8: with an empty logits vector, `Sample` returns the architecture's
EOS id for every sampler, clock, generator constructor, decoding
parameters and RecencyBuffer contents — so neither the buffer, the
generator nor the sampler can influence (or be touched by) the result. -/
theorem c8_sample_empty_logits (m : LLM) (hl : m.logits_ = []) :
    ∀ (ρ : Type)
      (sampler : gpt_vocab → List ℚ → Int → ℚ → ℚ → ℚ → Finset Int → ρ → Int)
      (timeNow : Int) (mkRng : Int → ρ) (top_k : Int)
      (top_p temperature rp : ℚ) (lnt seed : Int) (b' : RingBuffer),
      LLM.Sample sampler timeNow mkRng { m with previous_tokens_ := b' } top_k
          top_p temperature rp lnt seed = some m.EosToken := by
  intro ρ sampler timeNow mkRng top_k top_p temperature rp lnt seed b'
  unfold LLM.Sample
  rw [if_pos (show ({ m with previous_tokens_ := b' } : LLM).logits_ = [] from hl)]
  rfl

theorem c8_witness :
    LLM.Sample (fun _ _ _ _ _ _ _ (r : Int) => r) 99 (fun s => s)
        (⟨4, ⟨[], [], []⟩, [], mkBuffer 4 [], true⟩ : LLM) 40 (95/100) 1 (11/10)
        64 7
      = some (⟨4, ⟨[], [], []⟩, [], mkBuffer 4 [99], true⟩ : LLM).EosToken :=
  c8_sample_empty_logits ⟨4, ⟨[], [], []⟩, [], mkBuffer 4 [99], true⟩ rfl Int
    (fun _ _ _ _ _ _ _ r => r) 99 (fun s => s) 40 (95/100) 1 (11/10) 64 7
    (mkBuffer 4 [])

/-- C9: with `repetitionPenalty` exactly 1, `Sample` builds no recency
set — the sampler receives the empty recent-token set — and two sessions
sharing logits and vocabulary but with arbitrarily different
RecencyBuffer contents choose the same token. -/
theorem c9_penalty_one_noninterference (m₁ m₂ : LLM)
    (hlog : m₁.logits_ = m₂.logits_) (hvoc : m₁.vocab_ = m₂.vocab_) :
    ∀ (ρ : Type)
      (sampler : gpt_vocab → List ℚ → Int → ℚ → ℚ → ℚ → Finset Int → ρ → Int)
      (timeNow : Int) (mkRng : Int → ρ) (top_k : Int) (top_p temperature : ℚ)
      (lnt seed : Int),
      LLM.Sample sampler timeNow mkRng m₁ top_k top_p temperature 1 lnt seed
        = LLM.Sample sampler timeNow mkRng m₂ top_k top_p temperature 1 lnt seed ∧
      (m₁.logits_ ≠ [] →
        LLM.Sample sampler timeNow mkRng m₁ top_k top_p temperature 1 lnt seed
          = some (sampler m₁.vocab_
              (m₁.logits_.drop (m₁.logits_.length - m₁.VocabSize))
              top_k top_p temperature 1 ∅
              (mkRng (if seed < 0 then timeNow else seed)))) := by
  intro ρ sampler timeNow mkRng top_k top_p temperature lnt seed
  have hsub : ∀ (mm : LLM),
      LLM.Sample sampler timeNow mkRng mm top_k top_p temperature 1 lnt seed
        = if mm.logits_ = [] then some mm.EosToken
          else some (sampler mm.vocab_
              (mm.logits_.drop (mm.logits_.length - mm.VocabSize))
              top_k top_p temperature 1 ∅
              (mkRng (if seed < 0 then timeNow else seed))) := by
    intro mm
    unfold LLM.Sample
    dsimp only
    rw [if_neg (by simp : ¬ ((1 : ℚ) ≠ 1))]
  constructor
  · rw [hsub m₁, hsub m₂]
    unfold LLM.EosToken LLM.VocabSize
    rw [hlog, hvoc]
  · intro hne
    rw [hsub m₁, if_neg hne]

theorem c9_witness :
    LLM.Sample (fun _ _ _ _ _ _ recent (r : Int) => recent.card + r) 99
        (fun s => s) (⟨4, ⟨[], [], []⟩, [(1 : ℚ)], mkBuffer 4 [5, 6], true⟩ : LLM)
        40 (95/100) (7/10) 1 64 7
      = LLM.Sample (fun _ _ _ _ _ _ recent (r : Int) => recent.card + r) 99
        (fun s => s) (⟨4, ⟨[], [], []⟩, [(1 : ℚ)], mkBuffer 4 [], true⟩ : LLM)
        40 (95/100) (7/10) 1 64 7 :=
  (c9_penalty_one_noninterference _ _ rfl rfl Int
      (fun _ _ _ _ _ _ recent r => recent.card + r) 99 (fun s => s) 40 (95/100)
      (7/10) 64 7).1

/-- C10 (implicit): the canonical EOS id is the id mapped from the
literal `"<|endoftext|>"`; when the vocabulary lacks that token, it
silently falls back to id 0, so `Sample` with empty logits returns 0 and
`IsEosToken 0` is true. -/
theorem c10_eos_fallback_zero (m : LLM) :
    (∀ i : Int,
       mapFind m.vocab_.token_to_id "<|endoftext|>" = some i → m.EosToken = i) ∧
    (mapFind m.vocab_.token_to_id "<|endoftext|>" = none →
      m.EosToken = 0 ∧
      m.IsEosToken 0 = true ∧
      (m.logits_ = [] →
        ∀ (ρ : Type)
          (sampler : gpt_vocab → List ℚ → Int → ℚ → ℚ → ℚ → Finset Int → ρ → Int)
          (timeNow : Int) (mkRng : Int → ρ) (top_k : Int)
          (top_p temperature rp : ℚ) (lnt seed : Int),
          LLM.Sample sampler timeNow mkRng m top_k top_p temperature rp lnt seed
            = some 0)) := by
  constructor
  · intro i hi
    unfold LLM.EosToken
    rw [hi]
  · intro hnone
    have heos : m.EosToken = 0 := by
      unfold LLM.EosToken
      rw [hnone]
    refine ⟨heos, ?_, ?_⟩
    · unfold LLM.IsEosToken
      rw [if_pos heos.symm]
    · intro hl ρ sampler timeNow mkRng top_k top_p temperature rp lnt seed
      unfold LLM.Sample
      rw [if_pos hl, heos]

theorem c10_witness :
    (⟨4, ⟨[("a", 5)], [(5, "a")], []⟩, [], mkBuffer 4 [], false⟩ : LLM).EosToken
        = 0 ∧
    (⟨4, ⟨[("a", 5)], [(5, "a")], []⟩, [], mkBuffer 4 [], false⟩ : LLM).IsEosToken
        0 = true :=
  ⟨((c10_eos_fallback_zero ⟨4, ⟨[("a", 5)], [(5, "a")], []⟩, [], mkBuffer 4 [],
        false⟩).2 rfl).1,
   ((c10_eos_fallback_zero ⟨4, ⟨[("a", 5)], [(5, "a")], []⟩, [], mkBuffer 4 [],
        false⟩).2 rfl).2.1⟩
